import Mathlib

/-!
Verification of the earthquake-visualizer acquisition-and-filtering core.

The definitions below are a shallow embedding of the TypeScript source:
* the Gregorian calendar arithmetic performed through JavaScript `Date`
  objects (`setMonth`, `setDate`, comparisons) in `fetchEarthquakes`,
* the chunked fetch orchestrator splitting a date range into requests,
* the client-side filtering pipeline (magnitude / depth / count cap),
* the nearest-neighbour ranker of `InsightsTable` / the marker click handler,
* the magnitude-band aggregator of `EarthquakeVisualize`,
* the haversine distance function.

Numeric quantities that the source stores as JS numbers are modelled as
rationals where the code only compares and counts them, and as real numbers
for the trigonometric distance computation.
-/

namespace EarthquakeViz

/-! ### Calendar model: JavaScript `Date` at calendar-day granularity -/

/-- Gregorian leap-year rule, as implemented by JS `Date`. -/
def isLeap (y : Nat) : Bool :=
  (y % 4 == 0 && y % 100 != 0) || y % 400 == 0

/-- Length of month `m` (0-based, January = 0) of year `y`. -/
def daysInMonth (y m : Nat) : Nat :=
  if m = 1 then (if isLeap y then 29 else 28)
  else if m = 3 ∨ m = 5 ∨ m = 8 ∨ m = 10 then 30
  else 31

/-- A calendar date as held by a JS `Date` (year, 0-based month, 1-based day). -/
structure Date where
  y : Nat
  m : Nat
  d : Nat
deriving DecidableEq, Repr

/-- A normalized (real) calendar date. -/
def Date.Valid (dt : Date) : Prop :=
  dt.m ≤ 11 ∧ 1 ≤ dt.d ∧ dt.d ≤ daysInMonth dt.y dt.m

instance (dt : Date) : Decidable dt.Valid := by
  unfold Date.Valid; infer_instance

def daysInYear (y : Nat) : Nat := if isLeap y then 366 else 365

/-- Number of leap years among `0, …, y - 1`. -/
def leapsBefore (y : Nat) : Nat :=
  (y + 3) / 4 - (y + 99) / 100 + (y + 399) / 400

/-- Days elapsed in all years before year `y`. -/
def daysBeforeYear (y : Nat) : Nat :=
  365 * y + leapsBefore y

/-- Days elapsed in year `y` before month `m`. -/
def daysBeforeMonth (y m : Nat) : Nat :=
  (List.range m).foldl (fun acc j => acc + daysInMonth y j) 0

/-- Linear day index of the (possibly unnormalized) date `(y, m, d)`.
For normalized dates this orders exactly like the JS epoch-milliseconds value
of midnight of that date. -/
def rawDayNumber (y m d : Nat) : Nat :=
  daysBeforeYear y + daysBeforeMonth y m + d

def dayNumber (dt : Date) : Nat := rawDayNumber dt.y dt.m dt.d

/-- JS `d.setMonth(d.getMonth() + 1)`: advance one calendar month, with
day-of-month overflow rolling into the following month. -/
def addOneMonth (dt : Date) : Date :=
  if dt.d ≤ daysInMonth (dt.y + (dt.m + 1) / 12) ((dt.m + 1) % 12) then
    ⟨dt.y + (dt.m + 1) / 12, (dt.m + 1) % 12, dt.d⟩
  else
    ⟨dt.y + (dt.m + 1) / 12 + ((dt.m + 1) % 12 + 1) / 12, ((dt.m + 1) % 12 + 1) % 12,
      dt.d - daysInMonth (dt.y + (dt.m + 1) / 12) ((dt.m + 1) % 12)⟩

/-- JS `d.setDate(d.getDate() + 1)`: advance one day. -/
def addOneDay (dt : Date) : Date :=
  if dt.d + 1 ≤ daysInMonth dt.y dt.m then ⟨dt.y, dt.m, dt.d + 1⟩
  else ⟨dt.y + (dt.m + 1) / 12, (dt.m + 1) % 12, 1⟩

/-- Whole-calendar-month difference, as computed in `fetchEarthquakes`:
`(endDate.getFullYear() - startDate.getFullYear()) * 12 +
 (endDate.getMonth() - startDate.getMonth())`. -/
def monthDiff (s e : Date) : Int :=
  ((e.y : Int) - (s.y : Int)) * 12 + ((e.m : Int) - (s.m : Int))

/-! ### Calendar lemmas -/

theorem daysInMonth_le (y m : Nat) : daysInMonth y m ≤ 31 := by
  unfold daysInMonth
  split
  · split <;> omega
  · split <;> omega

theorem daysInMonth_ge (y m : Nat) : 28 ≤ daysInMonth y m := by
  unfold daysInMonth
  split
  · split <;> omega
  · split <;> omega

theorem daysBeforeMonth_succ (y m : Nat) :
    daysBeforeMonth y (m + 1) = daysBeforeMonth y m + daysInMonth y m := by
  unfold daysBeforeMonth
  rw [List.range_succ, List.foldl_append]
  rfl

theorem isLeap_true_iff (y : Nat) :
    isLeap y = true ↔ ((y % 4 = 0 ∧ ¬ y % 100 = 0) ∨ y % 400 = 0) := by
  simp [isLeap, Bool.or_eq_true, Bool.and_eq_true]

theorem daysBeforeYear_succ (y : Nat) :
    daysBeforeYear (y + 1) = daysBeforeYear y + daysInYear y := by
  unfold daysBeforeYear leapsBefore daysInYear
  by_cases h : isLeap y = true
  · rw [if_pos h]
    rw [isLeap_true_iff] at h
    omega
  · rw [if_neg h]
    rw [isLeap_true_iff] at h
    omega

theorem daysBeforeMonth_twelve (y : Nat) :
    daysBeforeMonth y 12 = daysInYear y := by
  cases h : isLeap y <;>
    simp [daysBeforeMonth, daysInYear, h, List.range_succ, daysInMonth]

/-- Month normalization preserves the day index (for at most one wrap). -/
theorem rawDayNumber_norm (y m d : Nat) (h : m ≤ 12) :
    rawDayNumber (y + m / 12) (m % 12) d = rawDayNumber y m d := by
  rcases Nat.lt_or_ge m 12 with h12 | h12
  · rw [Nat.div_eq_of_lt h12, Nat.mod_eq_of_lt h12, Nat.add_zero]
  · have hm : m = 12 := le_antisymm h h12
    subst hm
    unfold rawDayNumber
    rw [show (12 : Nat) / 12 = 1 from rfl, show (12 : Nat) % 12 = 0 from rfl,
      daysBeforeMonth_twelve, daysBeforeYear_succ]
    simp [daysBeforeMonth]

theorem dayNumber_mk (y m d : Nat) : dayNumber ⟨y, m, d⟩ = rawDayNumber y m d := rfl

theorem valid_mk (y m d : Nat) :
    Date.Valid ⟨y, m, d⟩ ↔ m ≤ 11 ∧ 1 ≤ d ∧ d ≤ daysInMonth y m := Iff.rfl

theorem dayNumber_addOneMonth (dt : Date) (h : dt.Valid) :
    dayNumber (addOneMonth dt) = dayNumber dt + daysInMonth dt.y dt.m := by
  obtain ⟨hm, hd1, hd2⟩ := h
  have hm12 : dt.m + 1 ≤ 12 := by omega
  have hnorm := rawDayNumber_norm dt.y (dt.m + 1) dt.d hm12
  have hstep : rawDayNumber dt.y (dt.m + 1) dt.d
      = dayNumber dt + daysInMonth dt.y dt.m := by
    unfold dayNumber rawDayNumber
    rw [daysBeforeMonth_succ]
    omega
  unfold addOneMonth
  split
  · rw [dayNumber_mk, hnorm, hstep]
  · rename_i hover
    push_neg at hover
    rw [dayNumber_mk, rawDayNumber_norm _ ((dt.m + 1) % 12 + 1) _ (by omega)]
    have : rawDayNumber (dt.y + (dt.m + 1) / 12) ((dt.m + 1) % 12 + 1)
          (dt.d - daysInMonth (dt.y + (dt.m + 1) / 12) ((dt.m + 1) % 12))
        = rawDayNumber (dt.y + (dt.m + 1) / 12) ((dt.m + 1) % 12) dt.d := by
      unfold rawDayNumber
      rw [daysBeforeMonth_succ]
      omega
    rw [this, hnorm, hstep]

theorem addOneMonth_valid (dt : Date) (h : dt.Valid) : (addOneMonth dt).Valid := by
  obtain ⟨hm, hd1, hd2⟩ := h
  have hb1 := daysInMonth_le dt.y dt.m
  unfold addOneMonth
  split
  · rename_i hle
    rw [valid_mk]
    exact ⟨Nat.le_of_lt_succ (Nat.mod_lt _ (by omega)), hd1, hle⟩
  · rename_i hover
    push_neg at hover
    have hg := daysInMonth_ge (dt.y + (dt.m + 1) / 12) ((dt.m + 1) % 12)
    have hg2 := daysInMonth_ge
      (dt.y + (dt.m + 1) / 12 + ((dt.m + 1) % 12 + 1) / 12) (((dt.m + 1) % 12 + 1) % 12)
    rw [valid_mk]
    exact ⟨Nat.le_of_lt_succ (Nat.mod_lt _ (by omega)), by omega, by omega⟩

theorem dayNumber_addOneDay (dt : Date) (h : dt.Valid) :
    dayNumber (addOneDay dt) = dayNumber dt + 1 := by
  obtain ⟨hm, hd1, hd2⟩ := h
  unfold addOneDay
  split
  · rfl
  · rename_i hover
    push_neg at hover
    have hd : dt.d = daysInMonth dt.y dt.m := by omega
    rw [dayNumber_mk, rawDayNumber_norm dt.y (dt.m + 1) 1 (by omega)]
    unfold dayNumber rawDayNumber
    rw [daysBeforeMonth_succ]
    omega

theorem addOneDay_valid (dt : Date) (h : dt.Valid) : (addOneDay dt).Valid := by
  obtain ⟨hm, hd1, hd2⟩ := h
  unfold addOneDay
  split
  · rw [valid_mk]
    exact ⟨hm, by omega, by assumption⟩
  · have hg := daysInMonth_ge (dt.y + (dt.m + 1) / 12) ((dt.m + 1) % 12)
    rw [valid_mk]
    exact ⟨Nat.le_of_lt_succ (Nat.mod_lt _ (by omega)), le_refl 1, by omega⟩

/-! ### Event model and filtering pipeline (from `fetchEarthquakes`) -/

/-- An earthquake feature as consumed by the filtering code: `properties.mag`
(possibly not a number, hence `Option`), `geometry.coordinates = [lon, lat,
depth]`, `properties.time`. -/
structure Event where
  id : String
  mag : Option ℚ
  depth : ℚ
  lat : ℚ
  lon : ℚ
  time : Int
deriving DecidableEq, Repr

/-- `const lowerMag = Array.isArray(magRange) ? magRange[0] : 0`. -/
def lowerMag (magRange : Option (ℚ × ℚ)) : ℚ :=
  match magRange with
  | some r => r.1
  | none => 0

/-- `const upperMag = Array.isArray(magRange) ? magRange[1] : minMagnitude`. -/
def upperMag (magRange : Option (ℚ × ℚ)) (minMagnitude : ℚ) : ℚ :=
  match magRange with
  | some r => r.2
  | none => minMagnitude

/-- NamedWindow client-side magnitude predicate:
`typeof m === 'number' && m >= lowerMag && m <= upperMag`. -/
def magKeep (magRange : Option (ℚ × ℚ)) (minMagnitude : ℚ) (e : Event) : Bool :=
  match e.mag with
  | some m => decide (lowerMag magRange ≤ m) && decide (m ≤ upperMag magRange minMagnitude)
  | none => false

/-- NamedWindow client-side magnitude filtering over every fetched event. -/
def magFilterNamed (magRange : Option (ℚ × ℚ)) (minMagnitude : ℚ)
    (l : List Event) : List Event :=
  l.filter (magKeep magRange minMagnitude)

/-- Depth filtering (both query modes):
`depth >= minDepth && depth <= maxDepth` when a `depthRange` is supplied. -/
def depthFilter : Option (ℚ × ℚ) → List Event → List Event
  | some r, l => l.filter (fun e => decide (r.1 ≤ e.depth) && decide (e.depth ≤ r.2))
  | none, l => l

/-- Count cap: `if (typeof maxCount === 'number' && maxCount > 0 &&
filtered.length > maxCount) filtered = filtered.slice(0, maxCount)`. -/
def applyCap : Option Int → List Event → List Event
  | some n, l => if 0 < n ∧ (n : Int) < (l.length : Int) then l.take n.toNat else l
  | none, l => l

/-- Client-side pipeline in CustomRange mode: depth filter then count cap
(no client-side magnitude filter is present in this branch of the source). -/
def customPipeline (depthRange : Option (ℚ × ℚ)) (maxCount : Option Int)
    (raw : List Event) : List Event :=
  applyCap maxCount (depthFilter depthRange raw)

/-- Client-side pipeline in NamedWindow mode: magnitude filter, then depth
filter, then count cap. -/
def namedPipeline (magRange : Option (ℚ × ℚ)) (minMagnitude : ℚ)
    (depthRange : Option (ℚ × ℚ)) (maxCount : Option Int)
    (raw : List Event) : List Event :=
  applyCap maxCount (depthFilter depthRange (magFilterNamed magRange minMagnitude raw))

/-! ### Chunked fetch orchestrator (from `fetchEarthquakes`, CustomRange) -/

/-- One remote request of the custom-range orchestrator: `starttime`,
`endtime` (calendar-day granularity) and the server-side magnitude bounds. -/
structure ChunkReq where
  starttime : Date
  endtime : Date
  minmagnitude : ℚ
  maxmagnitude : ℚ
deriving DecidableEq, Repr

/-- The clamped chunk end: `chunkEnd.setMonth(+1); if (chunkEnd > endDate)
chunkEnd = endDate`. -/
def chunkEnd (endD cur : Date) : Date :=
  if dayNumber endD < dayNumber (addOneMonth cur) then endD else addOneMonth cur

/-- The do-while chunk loop of `fetchEarthquakes`. `chunked` is
`chunkSize > 0`; `fuel` bounds the number of iterations (the source loop has
no such bound; `none` is returned if the bound is hit, and the termination
theorem shows the fuel supplied by `fetchRequests` is never exhausted). -/
def chunkLoop (endD : Date) (chunked : Bool) (lm um : ℚ) :
    Nat → Date → Option (List ChunkReq)
  | 0, _ => none
  | fuel + 1, cur =>
    if chunked then
      if dayNumber (addOneDay (chunkEnd endD cur)) < dayNumber endD then
        match chunkLoop endD chunked lm um fuel (addOneDay (chunkEnd endD cur)) with
        | none => none
        | some rest => some (⟨cur, chunkEnd endD cur, lm, um⟩ :: rest)
      else some [⟨cur, chunkEnd endD cur, lm, um⟩]
    else some [⟨cur, endD, lm, um⟩]

/-- The sequence of remote requests issued by `fetchEarthquakes` for an
explicit date range: month difference, chunk mode selection, and the chunk
loop starting at `startDate`. -/
def fetchRequests (magRange : Option (ℚ × ℚ)) (minMagnitude : ℚ)
    (s e : Date) : Option (List ChunkReq) :=
  chunkLoop e (decide (1 < monthDiff s e)) (lowerMag magRange)
    (upperMag magRange minMagnitude)
    ((dayNumber e - dayNumber s) / 29 + 2) s

/-- One run of the chunk-request sequence against a remote collaborator:
accumulates features in fetch order, aborts on the first failure (the thrown
error propagates out of the loop), and records which requests were actually
issued. -/
def runChunksTrace (remote : ChunkReq → Except String (List Event)) :
    List ChunkReq → Except String (List Event) × List ChunkReq
  | [] => (.ok [], [])
  | r :: rs =>
    match remote r with
    | .error msg => (.error msg, [r])
    | .ok evs =>
      match runChunksTrace remote rs with
      | (.error msg, issued) => (.error msg, r :: issued)
      | (.ok rest, issued) => (.ok (evs ++ rest), r :: issued)

/-! ### Aggregator (from `EarthquakeVisualize.byMagnitudeBucket`) -/

/-- An event as consumed by the visualization aggregator. -/
structure VizEvent where
  mag : ℚ
  time : Int
deriving DecidableEq, Repr

/-- A magnitude band: key, display label, optional lower bound (`-Infinity`
when absent) and optional upper bound (`Infinity` when absent). -/
structure Band where
  key : String
  label : String
  min : Option ℚ
  max : Option ℚ
deriving DecidableEq, Repr

/-- The four fixed bands of `byMagnitudeBucket`, in source order. -/
def bands : List Band :=
  [⟨"<2", "<2.0", none, some 2⟩,
   ⟨"2-3.9", "2.0-3.9", some 2, some 4⟩,
   ⟨"4-5.9", "4.0-5.9", some 4, some 6⟩,
   ⟨"6+", "6.0+", some 6, none⟩]

/-- `m >= b.min && m < b.max` with infinite defaults. -/
def inBand (b : Band) (m : ℚ) : Bool :=
  (match b.min with
   | some lo => decide (lo ≤ m)
   | none => true) &&
  (match b.max with
   | some hi => decide (m < hi)
   | none => true)

/-- One step of the counting loop: find the first matching band (the inner
`for … break`) and increment its key's counter. -/
def bumpBand (counts : String → Nat) (m : ℚ) : String → Nat :=
  match bands.find? (fun b => inBand b m) with
  | some b => fun k => if k = b.key then counts k + 1 else counts k
  | none => counts

/-- `byMagnitudeBucket`: count events per band, then emit `(label, count)`
for all four bands in fixed order (zero counts included). -/
def byMagnitudeBucket (data : List VizEvent) : List (String × Nat) :=
  let counts := data.foldl (fun cs f => bumpBand cs f.mag) (fun _ => 0)
  bands.map (fun b => (b.label, counts b.key))

/-! ### Geodesic distance and nearest-neighbour ranker -/

/-- JS `Math.atan2(y, x)`. -/
noncomputable def atan2 (y x : ℝ) : ℝ :=
  if 0 < x then Real.arctan (y / x)
  else if x < 0 then
    (if 0 ≤ y then Real.arctan (y / x) + Real.pi else Real.arctan (y / x) - Real.pi)
  else
    (if 0 < y then Real.pi / 2 else if y < 0 then -(Real.pi / 2) else 0)

/-- The intermediate haversine quantity `a` of the source. -/
noncomputable def havA (lat1 lon1 lat2 lon2 : ℝ) : ℝ :=
  Real.sin ((lat2 - lat1) * Real.pi / 180 / 2) * Real.sin ((lat2 - lat1) * Real.pi / 180 / 2) +
    Real.cos (lat1 * Real.pi / 180) * Real.cos (lat2 * Real.pi / 180) *
    Real.sin ((lon2 - lon1) * Real.pi / 180 / 2) * Real.sin ((lon2 - lon1) * Real.pi / 180 / 2)

/-- `haversineKm`: great-circle distance on a sphere of radius 6371 km,
`R * (2 * atan2(sqrt a, sqrt (1 - a)))`. -/
noncomputable def haversineKm (lat1 lon1 lat2 lon2 : ℝ) : ℝ :=
  6371 * (2 * atan2 (Real.sqrt (havA lat1 lon1 lat2 lon2))
    (Real.sqrt (1 - havA lat1 lon1 lat2 lon2)))

/-- The `(event, distance)` pairs built before sorting, in arrival order. -/
noncomputable def distPairs (base : Event) (l : List Event) : List (Event × ℝ) :=
  l.map (fun e =>
    (e, haversineKm (base.lat : ℝ) (base.lon : ℝ) (e.lat : ℝ) (e.lon : ℝ)))

/-- The JS comparator `(a, b) => a.distKm - b.distKm` as a boolean ordering
(stable sort by ascending distance). -/
noncomputable def distLE (a b : Event × ℝ) : Bool :=
  @decide (a.2 ≤ b.2) (Classical.propDecidable _)

/-- `InsightsTable` rows / marker-click ranking: sort the pairs by distance
(stably) and keep the first 10. -/
noncomputable def rankRows (base : Event) (l : List Event) : List (Event × ℝ) :=
  ((distPairs base l).mergeSort distLE).take 10

/-! ### Filtering-pipeline lemmas -/

theorem applyCap_some_pos (n : Int) (hn : 1 ≤ n) (l : List Event) :
    applyCap (some n) l = l.take n.toNat := by
  rw [applyCap]
  split
  · rfl
  · rename_i hcond
    have hlen : (l.length : Int) ≤ n := by
      rcases not_and_or.mp hcond with h | h <;> omega
    rw [List.take_of_length_le]
    omega

theorem applyCap_some_nonpos (n : Int) (hn : n ≤ 0) (l : List Event) :
    applyCap (some n) l = l := by
  rw [applyCap]
  split
  · rename_i hcond
    exact absurd hcond.1 (by omega)
  · rfl

theorem mem_applyCap {mc : Option Int} {l : List Event} {e : Event}
    (h : e ∈ applyCap mc l) : e ∈ l := by
  cases mc with
  | none => exact h
  | some n =>
    rw [applyCap] at h
    split at h
    · exact List.mem_of_mem_take h
    · exact h

theorem mem_depthFilter {dr : Option (ℚ × ℚ)} {l : List Event} {e : Event}
    (h : e ∈ depthFilter dr l) :
    e ∈ l ∧ ∀ lo hi : ℚ, dr = some (lo, hi) → lo ≤ e.depth ∧ e.depth ≤ hi := by
  cases dr with
  | none => exact ⟨h, fun lo hi hc => by cases hc⟩
  | some r =>
    rw [depthFilter, List.mem_filter] at h
    refine ⟨h.1, fun lo hi hc => ?_⟩
    have h2 := h.2
    simp only [Bool.and_eq_true, decide_eq_true_eq] at h2
    injection hc with hc
    subst hc
    exact h2

theorem mem_magFilterNamed {mr : Option (ℚ × ℚ)} {mm : ℚ} {l : List Event} {e : Event}
    (h : e ∈ magFilterNamed mr mm l) :
    e ∈ l ∧ ∃ m, e.mag = some m ∧ lowerMag mr ≤ m ∧ m ≤ upperMag mr mm := by
  rw [magFilterNamed, List.mem_filter] at h
  refine ⟨h.1, ?_⟩
  have h2 := h.2
  unfold magKeep at h2
  cases hm : e.mag with
  | none => rw [hm] at h2; cases h2
  | some m =>
    rw [hm] at h2
    simp only [Bool.and_eq_true, decide_eq_true_eq] at h2
    exact ⟨m, rfl, h2.1, h2.2⟩

/-! ### Claims C1, C4, C5 -/

/-- Claim C4: the count cap is a prefix truncation of the uncapped filtered
sequence. For any cap `N ≥ 1` the pipeline output is exactly the first `N`
elements of the uncapped filtered list (hence has length at most `N`), and an
absent or non-positive cap leaves the filtered list untouched — in both query
modes. -/
theorem claim4_count_cap (dr mr : Option (ℚ × ℚ)) (mm : ℚ) (raw : List Event)
    (n : Int) :
    (1 ≤ n →
      customPipeline dr (some n) raw = (depthFilter dr raw).take n.toNat ∧
      (customPipeline dr (some n) raw).length ≤ n.toNat ∧
      namedPipeline mr mm dr (some n) raw
        = (depthFilter dr (magFilterNamed mr mm raw)).take n.toNat ∧
      (namedPipeline mr mm dr (some n) raw).length ≤ n.toNat) ∧
    (n ≤ 0 →
      customPipeline dr (some n) raw = depthFilter dr raw ∧
      namedPipeline mr mm dr (some n) raw
        = depthFilter dr (magFilterNamed mr mm raw)) ∧
    customPipeline dr none raw = depthFilter dr raw ∧
    namedPipeline mr mm dr none raw = depthFilter dr (magFilterNamed mr mm raw) := by
  refine ⟨fun hn => ?_, fun hn => ?_, rfl, rfl⟩
  · refine ⟨?_, ?_, ?_, ?_⟩
    · show applyCap (some n) (depthFilter dr raw) = _
      rw [applyCap_some_pos n hn]
    · show (applyCap (some n) (depthFilter dr raw)).length ≤ _
      rw [applyCap_some_pos n hn, List.length_take]
      exact min_le_left _ _
    · show applyCap (some n) (depthFilter dr (magFilterNamed mr mm raw)) = _
      rw [applyCap_some_pos n hn]
    · show (applyCap (some n) (depthFilter dr (magFilterNamed mr mm raw))).length ≤ _
      rw [applyCap_some_pos n hn, List.length_take]
      exact min_le_left _ _
  · constructor
    · show applyCap (some n) (depthFilter dr raw) = _
      rw [applyCap_some_nonpos n hn]
    · show applyCap (some n) (depthFilter dr (magFilterNamed mr mm raw)) = _
      rw [applyCap_some_nonpos n hn]

def ev1 : Event := ⟨"a", some 1, 10, 0, 0, 0⟩
def ev2 : Event := ⟨"b", some 3, 20, 0, 0, 0⟩
def ev3 : Event := ⟨"c", some 5, 30, 0, 0, 0⟩

/-- Witness for C4 at cap 2 over three events. -/
theorem claim4_witness :
    customPipeline none (some 2) [ev1, ev2, ev3] = [ev1, ev2] ∧
    (customPipeline none (some 2) [ev1, ev2, ev3]).length ≤ (2 : Int).toNat := by
  have h := (claim4_count_cap none none 0 [ev1, ev2, ev3] 2).1 (by norm_num)
  exact ⟨by rw [h.1]; rfl, h.2.1⟩

/-- Claim C5: under NamedWindow the client-side magnitude filter keeps an
event (with numeric magnitude `m`) iff `lower ≤ m ≤ upper`, where the bounds
come from the configured magnitude range, defaulting to `0` and to the
caller's minimum-magnitude scalar respectively when no range is configured. -/
theorem claim5_named_magnitude (mr : Option (ℚ × ℚ)) (mm : ℚ) (l : List Event)
    (e : Event) (m : ℚ) (hel : e ∈ l) (hm : e.mag = some m) :
    (e ∈ magFilterNamed mr mm l ↔ lowerMag mr ≤ m ∧ m ≤ upperMag mr mm) ∧
    lowerMag none = 0 ∧ upperMag none mm = mm ∧
    ∀ a b : ℚ, lowerMag (some (a, b)) = a ∧ upperMag (some (a, b)) mm = b := by
  refine ⟨?_, rfl, rfl, fun a b => ⟨rfl, rfl⟩⟩
  rw [magFilterNamed, List.mem_filter]
  unfold magKeep
  rw [hm]
  simp [hel, decide_eq_true_eq]

def ev4 : Event := ⟨"d", some 2, 0, 0, 0, 0⟩

/-- Witness for C5: default bounds with `minMagnitude = 3` keep a mag-2 event. -/
theorem claim5_witness :
    (ev4 ∈ magFilterNamed none 3 [ev4] ↔ (0 : ℚ) ≤ 2 ∧ (2 : ℚ) ≤ 3) ∧
    lowerMag none = 0 ∧ upperMag none 3 = 3 := by
  have h := claim5_named_magnitude none 3 [ev4] ev4 2 (List.mem_singleton.mpr rfl) rfl
  exact ⟨h.1, h.2.1, h.2.2.1⟩

/-- Claim C1, amended: the pipeline output is always a subset of its input and
every retained event satisfies the depth bounds; magnitude bounds are
additionally guaranteed client-side only under NamedWindow.  (Under
CustomRange the source applies no client-side magnitude filter at all — see
`claim1_counterexample`.) -/
theorem claim1_pipeline_subset_bounds (dr : Option (ℚ × ℚ)) (mc : Option Int)
    (mr : Option (ℚ × ℚ)) (mm : ℚ) (raw : List Event) (e : Event) :
    (e ∈ customPipeline dr mc raw →
      e ∈ raw ∧ ∀ lo hi : ℚ, dr = some (lo, hi) → lo ≤ e.depth ∧ e.depth ≤ hi) ∧
    (e ∈ namedPipeline mr mm dr mc raw →
      e ∈ raw ∧ (∀ lo hi : ℚ, dr = some (lo, hi) → lo ≤ e.depth ∧ e.depth ≤ hi) ∧
      ∃ m, e.mag = some m ∧ lowerMag mr ≤ m ∧ m ≤ upperMag mr mm) := by
  constructor
  · intro h
    exact mem_depthFilter (mem_applyCap h)
  · intro h
    have h2 := mem_depthFilter (mem_applyCap h)
    have h3 := mem_magFilterNamed h2.1
    exact ⟨h3.1, h2.2, h3.2⟩

def eBig : Event := ⟨"big", some 9, 5, 0, 0, 0⟩

/-- Claim C1 counterexample: in CustomRange mode, with configured magnitude
bounds `[0, 2]` (and depth bounds `[0, 10]`), an event of magnitude 9 returned
by the remote feed is retained by the client-side pipeline: the CustomRange
branch of the source applies no client-side magnitude filter, contradicting
the claim that no retained event can violate the magnitude bounds. -/
theorem claim1_counterexample :
    eBig ∈ customPipeline (some (0, 10)) none [eBig] ∧
    eBig.mag = some 9 ∧
    ¬ (lowerMag (some ((0 : ℚ), (2 : ℚ))) ≤ 9 ∧
       (9 : ℚ) ≤ upperMag (some ((0 : ℚ), (2 : ℚ))) 2) := by
  refine ⟨by decide, rfl, ?_⟩
  intro hc
  have := hc.2
  norm_num [upperMag] at this

/-- Witness for C1 (amended): a retained event is in the raw input and within
the configured depth bounds. -/
theorem claim1_witness :
    eBig ∈ [eBig] ∧ (0 : ℚ) ≤ eBig.depth ∧ eBig.depth ≤ 10 := by
  have h := (claim1_pipeline_subset_bounds (some (0, 10)) none none 0 [eBig] eBig).1
    (by decide)
  exact ⟨h.1, h.2 0 10 rfl⟩

/-! ### Haversine lemmas and claim C9 -/

theorem atan2_nonneg {y x : ℝ} (hy : 0 ≤ y) (hx : 0 ≤ x) : 0 ≤ atan2 y x := by
  unfold atan2
  rcases lt_trichotomy (0 : ℝ) x with h | h | h
  · rw [if_pos h]
    have h2 := Real.arctan_strictMono.monotone (div_nonneg hy h.le)
    rwa [Real.arctan_zero] at h2
  · rw [if_neg (by rw [← h]; exact lt_irrefl 0), if_neg (by rw [← h]; exact lt_irrefl 0)]
    rcases lt_trichotomy (0 : ℝ) y with hy2 | hy2 | hy2
    · rw [if_pos hy2]
      positivity
    · rw [if_neg (by rw [← hy2]; exact lt_irrefl 0),
        if_neg (by rw [← hy2]; exact lt_irrefl 0)]
    · exact absurd hy2 (not_lt.mpr hy)
  · exact absurd h (not_lt.mpr hx)

theorem atan2_zero_one : atan2 0 1 = 0 := by
  unfold atan2
  rw [if_pos one_pos]
  norm_num [Real.arctan_zero]

theorem havA_self (lat lon : ℝ) : havA lat lon lat lon = 0 := by
  unfold havA
  simp [sub_self]

theorem havA_symm (lat1 lon1 lat2 lon2 : ℝ) :
    havA lat1 lon1 lat2 lon2 = havA lat2 lon2 lat1 lon1 := by
  unfold havA
  rw [show (lat1 - lat2) * Real.pi / 180 / 2
        = -((lat2 - lat1) * Real.pi / 180 / 2) from by ring,
    show (lon1 - lon2) * Real.pi / 180 / 2
        = -((lon2 - lon1) * Real.pi / 180 / 2) from by ring,
    Real.sin_neg, Real.sin_neg]
  ring

theorem haversineKm_self (lat lon : ℝ) : haversineKm lat lon lat lon = 0 := by
  unfold haversineKm
  rw [havA_self, Real.sqrt_zero, sub_zero, Real.sqrt_one, atan2_zero_one]
  ring

theorem haversineKm_symm (lat1 lon1 lat2 lon2 : ℝ) :
    haversineKm lat1 lon1 lat2 lon2 = haversineKm lat2 lon2 lat1 lon1 := by
  unfold haversineKm
  rw [havA_symm lat1 lon1 lat2 lon2]

theorem haversineKm_nonneg (lat1 lon1 lat2 lon2 : ℝ) :
    0 ≤ haversineKm lat1 lon1 lat2 lon2 := by
  unfold haversineKm
  have h := atan2_nonneg (Real.sqrt_nonneg (havA lat1 lon1 lat2 lon2))
    (Real.sqrt_nonneg (1 - havA lat1 lon1 lat2 lon2))
  have h2 : (0 : ℝ) ≤ 2 := by norm_num
  exact mul_nonneg (by norm_num) (mul_nonneg h2 h)

/-- Claim C9: the geodesic distance function is nonnegative on all real
inputs, symmetric, and zero on identical points. -/
theorem claim9_haversine_contract :
    (∀ lat1 lon1 lat2 lon2 : ℝ, 0 ≤ haversineKm lat1 lon1 lat2 lon2) ∧
    (∀ lat1 lon1 lat2 lon2 : ℝ,
      haversineKm lat1 lon1 lat2 lon2 = haversineKm lat2 lon2 lat1 lon1) ∧
    (∀ lat lon : ℝ, haversineKm lat lon lat lon = 0) :=
  ⟨haversineKm_nonneg, haversineKm_symm, haversineKm_self⟩

/-! ### Aggregator lemmas and claim C8 -/

/-- Sum of the four per-band counters. -/
def totalCounts (cs : String → Nat) : Nat :=
  cs "<2" + cs "2-3.9" + cs "4-5.9" + cs "6+"

theorem bumpBand_total (cs : String → Nat) (m : ℚ) :
    totalCounts (bumpBand cs m) = totalCounts cs + 1 := by
  unfold bumpBand
  rcases lt_or_le m 2 with h1 | h1
  · rw [show bands.find? (fun b => inBand b m) = some ⟨"<2", "<2.0", none, some 2⟩ from by
      simp [bands, inBand, h1]]
    simp [totalCounts]
    omega
  rcases lt_or_le m 4 with h2 | h2
  · rw [show bands.find? (fun b => inBand b m) = some ⟨"2-3.9", "2.0-3.9", some 2, some 4⟩ from by
      simp [bands, inBand, h1, h2, not_lt.mpr h1]]
    simp [totalCounts]
    omega
  rcases lt_or_le m 6 with h3 | h3
  · rw [show bands.find? (fun b => inBand b m) = some ⟨"4-5.9", "4.0-5.9", some 4, some 6⟩ from by
      simp [bands, inBand, h2, h3, not_lt.mpr h1, not_lt.mpr (by linarith : (2:ℚ) ≤ m)]]
    simp [totalCounts]
    omega
  · rw [show bands.find? (fun b => inBand b m) = some ⟨"6+", "6.0+", some 6, none⟩ from by
      simp [bands, inBand, h3, not_lt.mpr (by linarith : (2:ℚ) ≤ m),
        not_lt.mpr (by linarith : (4:ℚ) ≤ m), not_le.mpr (by linarith : m < 2 → False)]]
    simp [totalCounts]
    omega

theorem foldl_bump_total (data : List VizEvent) :
    ∀ cs, totalCounts (data.foldl (fun cs f => bumpBand cs f.mag) cs)
      = totalCounts cs + data.length := by
  induction data with
  | nil => intro cs; simp
  | cons f fs ih =>
    intro cs
    rw [List.foldl_cons, ih, bumpBand_total]
    simp
    omega

/-- Claim C8: the magnitude-band aggregator always emits exactly the four
fixed bands in order (zero counts included), every rational magnitude matches
exactly one band, and the counts sum to the number of input events. -/
theorem claim8_aggregator (data : List VizEvent) :
    (byMagnitudeBucket data).map Prod.fst = ["<2.0", "2.0-3.9", "4.0-5.9", "6.0+"] ∧
    (byMagnitudeBucket data).length = 4 ∧
    ((byMagnitudeBucket data).map Prod.snd).sum = data.length ∧
    ∀ m : ℚ, bands.countP (fun b => inBand b m) = 1 := by
  refine ⟨by simp [byMagnitudeBucket, bands], by simp [byMagnitudeBucket, bands], ?_, ?_⟩
  · have h := foldl_bump_total data (fun _ => 0)
    rw [show totalCounts (fun _ : String => 0) = 0 from rfl] at h
    unfold totalCounts at h
    simp only [byMagnitudeBucket, bands, List.map_cons, List.map_nil,
      List.sum_cons, List.sum_nil]
    omega
  · intro m
    rcases lt_or_le m 2 with h1 | h1
    · have ha : ¬ (2 : ℚ) ≤ m := by linarith
      have hb : ¬ (4 : ℚ) ≤ m := by linarith
      have hc : ¬ (6 : ℚ) ≤ m := by linarith
      simp [bands, inBand, List.countP_cons, h1, ha, hb, hc]
    rcases lt_or_le m 4 with h2 | h2
    · have ha : ¬ m < 2 := not_lt.mpr h1
      have hb : ¬ (4 : ℚ) ≤ m := by linarith
      have hc : ¬ (6 : ℚ) ≤ m := by linarith
      simp [bands, inBand, List.countP_cons, h1, h2, ha, hb, hc]
    rcases lt_or_le m 6 with h3 | h3
    · have ha : ¬ m < 2 := by linarith
      have hb : ¬ m < 4 := not_lt.mpr h2
      have hc : ¬ (6 : ℚ) ≤ m := by linarith
      have hd : (2 : ℚ) ≤ m := by linarith
      simp [bands, inBand, List.countP_cons, h2, h3, ha, hb, hc, hd]
    · have ha : ¬ m < 2 := by linarith
      have hb : ¬ m < 4 := by linarith
      have hc : ¬ m < 6 := not_lt.mpr h3
      have hd : (2 : ℚ) ≤ m := by linarith
      have he : (4 : ℚ) ≤ m := by linarith
      simp [bands, inBand, List.countP_cons, h3, ha, hb, hc, hd, he]

/-! ### Orchestrator lemmas -/

theorem chunkEnd_valid {endD cur : Date} (hcv : cur.Valid) (hev : endD.Valid) :
    (chunkEnd endD cur).Valid := by
  unfold chunkEnd
  split
  · exact hev
  · exact addOneMonth_valid _ hcv

theorem dayNumber_chunkEnd_ge {endD cur : Date} (hcv : cur.Valid)
    (hle : dayNumber cur ≤ dayNumber endD) :
    dayNumber cur ≤ dayNumber (chunkEnd endD cur) := by
  unfold chunkEnd
  split
  · exact hle
  · rw [dayNumber_addOneMonth _ hcv]
    omega

theorem dayNumber_chunkEnd_le31 {endD cur : Date} (hcv : cur.Valid) :
    dayNumber (chunkEnd endD cur) ≤ dayNumber cur + 31 := by
  have h1 := dayNumber_addOneMonth cur hcv
  have h2 := daysInMonth_le cur.y cur.m
  unfold chunkEnd
  split
  · rename_i hcl
    omega
  · omega

theorem dayNumber_chunkEnd_leEnd {endD cur : Date}
    (hle : dayNumber cur ≤ dayNumber endD) :
    dayNumber (chunkEnd endD cur) ≤ dayNumber endD := by
  unfold chunkEnd
  split
  · exact le_refl _
  · rename_i hcl
    omega

theorem chunkLoop_false (endD : Date) (lm um : ℚ) (fuel : Nat) (cur : Date) :
    chunkLoop endD false lm um (fuel + 1) cur = some [⟨cur, endD, lm, um⟩] := by
  rw [chunkLoop]
  simp

/-- Invariant of the chunked do-while loop: the chunks start at the cursor,
are consecutive and non-overlapping, each spans at most 31 days and stays
inside the range, the last chunk ends at `endD` or one day before it, and
every day of the range except possibly the final one is covered. -/
theorem chunkLoop_spec (endD : Date) (lm um : ℚ) (hev : endD.Valid) :
    ∀ (fuel : Nat) (cur : Date) (l : List ChunkReq),
      cur.Valid → dayNumber cur ≤ dayNumber endD →
      chunkLoop endD true lm um fuel cur = some l →
      l.head?.map ChunkReq.starttime = some cur ∧
      List.Chain' (fun a b => dayNumber b.starttime = dayNumber a.endtime + 1) l ∧
      (∀ c ∈ l, dayNumber cur ≤ dayNumber c.starttime ∧
        dayNumber c.starttime ≤ dayNumber c.endtime ∧
        dayNumber c.endtime ≤ dayNumber c.starttime + 31 ∧
        dayNumber c.endtime ≤ dayNumber endD) ∧
      (∀ c : ChunkReq, l.getLast? = some c → dayNumber endD ≤ dayNumber c.endtime + 1) ∧
      (∀ n : Nat, dayNumber cur ≤ n → n < dayNumber endD →
        ∃ c ∈ l, dayNumber c.starttime ≤ n ∧ n ≤ dayNumber c.endtime) := by
  intro fuel
  induction fuel with
  | zero =>
    intro cur l _ _ hl
    simp [chunkLoop] at hl
  | succ fuel ih =>
    intro cur l hcv hle hl
    rw [chunkLoop, if_pos rfl] at hl
    have hcEv : (chunkEnd endD cur).Valid := chunkEnd_valid hcv hev
    have hge : dayNumber cur ≤ dayNumber (chunkEnd endD cur) :=
      dayNumber_chunkEnd_ge hcv hle
    have hle31 : dayNumber (chunkEnd endD cur) ≤ dayNumber cur + 31 :=
      dayNumber_chunkEnd_le31 hcv
    have hleE : dayNumber (chunkEnd endD cur) ≤ dayNumber endD :=
      dayNumber_chunkEnd_leEnd hle
    have hnext : dayNumber (addOneDay (chunkEnd endD cur))
        = dayNumber (chunkEnd endD cur) + 1 := dayNumber_addOneDay _ hcEv
    by_cases hc : dayNumber (addOneDay (chunkEnd endD cur)) < dayNumber endD
    · rw [if_pos hc] at hl
      cases hrec : chunkLoop endD true lm um fuel (addOneDay (chunkEnd endD cur)) with
      | none => rw [hrec] at hl; cases hl
      | some rest =>
        rw [hrec] at hl
        injection hl with hl
        subst hl
        have hnv : (addOneDay (chunkEnd endD cur)).Valid := addOneDay_valid _ hcEv
        obtain ⟨ihHead, ihChain, ihAll, ihLast, ihCov⟩ :=
          ih (addOneDay (chunkEnd endD cur)) rest hnv (le_of_lt hc) hrec
        refine ⟨rfl, ?_, ?_, ?_, ?_⟩
        · rw [List.chain'_cons']
          refine ⟨?_, ihChain⟩
          intro b hb
          cases hrh : rest.head? with
          | none => rw [hrh] at hb; cases hb
          | some b0 =>
            rw [hrh] at hb ihHead
            simp only [Option.map_some', Option.some.injEq] at ihHead
            have hb0 : b = b0 := by cases hb; rfl
            subst hb0
            show dayNumber b.starttime = dayNumber (chunkEnd endD cur) + 1
            rw [ihHead, hnext]
        · intro c hc2
          rcases List.mem_cons.mp hc2 with rfl | hc3
          · exact ⟨le_refl _, hge, hle31, hleE⟩
          · have h4 := ihAll c hc3
            have h5 := h4.1
            exact ⟨by omega, h4.2.1, h4.2.2.1, h4.2.2.2⟩
        · intro c hcl
          cases hre : rest with
          | nil =>
            rw [hre] at ihHead
            simp at ihHead
          | cons b t =>
            rw [hre] at hcl
            rw [List.getLast?_cons_cons] at hcl
            rw [← hre] at hcl
            exact ihLast c hcl
        · intro n hn1 hn2
          rcases le_or_lt n (dayNumber (chunkEnd endD cur)) with hle2 | hlt2
          · exact ⟨⟨cur, chunkEnd endD cur, lm, um⟩, List.mem_cons_self _ _, hn1, hle2⟩
          · obtain ⟨c, hcm, hc1, hc2⟩ := ihCov n (by omega) hn2
            exact ⟨c, List.mem_cons_of_mem _ hcm, hc1, hc2⟩
    · rw [if_neg hc] at hl
      injection hl with hl
      subst hl
      push_neg at hc
      refine ⟨rfl, List.chain'_singleton _, ?_, ?_, ?_⟩
      · intro c hc2
        rcases List.mem_singleton.mp hc2 with rfl
        exact ⟨le_refl _, hge, hle31, hleE⟩
      · intro c hcl
        rw [show ([(⟨cur, chunkEnd endD cur, lm, um⟩ : ChunkReq)]).getLast?
            = some ⟨cur, chunkEnd endD cur, lm, um⟩ from rfl] at hcl
        injection hcl with hcl
        subst hcl
        show dayNumber endD ≤ dayNumber (chunkEnd endD cur) + 1
        omega
      · intro n hn1 hn2
        refine ⟨⟨cur, chunkEnd endD cur, lm, um⟩, List.mem_singleton_self _, hn1, ?_⟩
        show n ≤ dayNumber (chunkEnd endD cur)
        omega

/-- The fuel supplied to the chunk loop is sufficient: with
`dayNumber endD ≤ dayNumber cur + 29 * fuel`, the loop with `fuel + 1` steps
completes. -/
theorem chunkLoop_some (endD : Date) (lm um : ℚ) (hev : endD.Valid) :
    ∀ (fuel : Nat) (cur : Date), cur.Valid →
      dayNumber endD ≤ dayNumber cur + 29 * fuel →
      ∃ l, chunkLoop endD true lm um (fuel + 1) cur = some l := by
  intro fuel
  induction fuel with
  | zero =>
    intro cur hcv hb
    rw [chunkLoop, if_pos rfl]
    by_cases hcl : dayNumber endD < dayNumber (addOneMonth cur)
    · have he1 : chunkEnd endD cur = endD := by unfold chunkEnd; rw [if_pos hcl]
      rw [he1]
      have hnext : dayNumber (addOneDay endD) = dayNumber endD + 1 :=
        dayNumber_addOneDay _ hev
      rw [if_neg (by omega)]
      exact ⟨_, rfl⟩
    · have he1 : chunkEnd endD cur = addOneMonth cur := by
        unfold chunkEnd; rw [if_neg hcl]
      rw [he1]
      push_neg at hcl
      have hmv : (addOneMonth cur).Valid := addOneMonth_valid _ hcv
      have hnext : dayNumber (addOneDay (addOneMonth cur))
          = dayNumber (addOneMonth cur) + 1 := dayNumber_addOneDay _ hmv
      have hmon : dayNumber (addOneMonth cur)
          = dayNumber cur + daysInMonth cur.y cur.m := dayNumber_addOneMonth _ hcv
      have hdim := daysInMonth_ge cur.y cur.m
      rw [if_neg (by omega)]
      exact ⟨_, rfl⟩
  | succ fuel ih =>
    intro cur hcv hb
    rw [chunkLoop, if_pos rfl]
    by_cases hcl : dayNumber endD < dayNumber (addOneMonth cur)
    · have he1 : chunkEnd endD cur = endD := by unfold chunkEnd; rw [if_pos hcl]
      rw [he1]
      have hnext : dayNumber (addOneDay endD) = dayNumber endD + 1 :=
        dayNumber_addOneDay _ hev
      rw [if_neg (by omega)]
      exact ⟨_, rfl⟩
    · have he1 : chunkEnd endD cur = addOneMonth cur := by
        unfold chunkEnd; rw [if_neg hcl]
      rw [he1]
      push_neg at hcl
      have hmv : (addOneMonth cur).Valid := addOneMonth_valid _ hcv
      have hnext : dayNumber (addOneDay (addOneMonth cur))
          = dayNumber (addOneMonth cur) + 1 := dayNumber_addOneDay _ hmv
      have hmon : dayNumber (addOneMonth cur)
          = dayNumber cur + daysInMonth cur.y cur.m := dayNumber_addOneMonth _ hcv
      have hdim := daysInMonth_ge cur.y cur.m
      by_cases hc : dayNumber (addOneDay (addOneMonth cur)) < dayNumber endD
      · rw [if_pos hc]
        obtain ⟨l, hl⟩ := ih (addOneDay (addOneMonth cur)) (addOneDay_valid _ hmv)
          (by omega)
        rw [hl]
        exact ⟨_, rfl⟩
      · rw [if_neg hc]
        exact ⟨_, rfl⟩

/-- With a month difference of at most 1, `fetchEarthquakes` issues exactly
one request covering the whole range. -/
theorem fetchRequests_eq_single (mr : Option (ℚ × ℚ)) (mm : ℚ) (s e : Date)
    (hmd : monthDiff s e ≤ 1) :
    fetchRequests mr mm s e = some [⟨s, e, lowerMag mr, upperMag mr mm⟩] := by
  unfold fetchRequests
  rw [decide_eq_false (by omega : ¬ 1 < monthDiff s e)]
  rw [show (dayNumber e - dayNumber s) / 29 + 2
      = ((dayNumber e - dayNumber s) / 29 + 1) + 1 from by omega]
  exact chunkLoop_false e (lowerMag mr) (upperMag mr mm) _ s

/-! ### Claims C2, C3, C10 -/

/-- Claim C3: for a range whose whole-calendar-month span is at most one
month, the orchestrator issues exactly one request, with `starttime` the
range's start date and `endtime` the range's end date. -/
theorem claim3_single_request (mr : Option (ℚ × ℚ)) (mm : ℚ) (s e : Date)
    (hle : dayNumber s ≤ dayNumber e) (hmd : monthDiff s e ≤ 1) :
    fetchRequests mr mm s e = some [⟨s, e, lowerMag mr, upperMag mr mm⟩] :=
  fetchRequests_eq_single mr mm s e hmd

/-- Witness for C3: the spec scenario `[2024-01-01, 2024-01-15]` yields one
request `starttime=2024-01-01&endtime=2024-01-15`. -/
theorem claim3_witness :
    fetchRequests none 2 ⟨2024, 0, 1⟩ ⟨2024, 0, 15⟩
      = some [⟨⟨2024, 0, 1⟩, ⟨2024, 0, 15⟩, 0, 2⟩] :=
  claim3_single_request none 2 ⟨2024, 0, 1⟩ ⟨2024, 0, 15⟩ (by decide) (by decide)

/-- Claim C2, amended: for a range spanning more than one calendar month the
orchestrator issues a finite sequence of requests, starting at `start`, each
covering at most 31 days, consecutive and non-overlapping (each next
`starttime` is the previous `endtime` plus one day), all inside the range;
the final request ends at the range end or one day before it, and every day
of the range except possibly the final day is covered by some request.  (The
request count is not `ceil(spanMonths)` and the final day can be uncovered —
see `claim2_counterexample`.) -/
theorem claim2_chunk_structure (mr : Option (ℚ × ℚ)) (mm : ℚ) (s e : Date)
    (l : List ChunkReq)
    (hs : s.Valid) (he : e.Valid) (hle : dayNumber s ≤ dayNumber e)
    (hmd : 1 < monthDiff s e)
    (hl : fetchRequests mr mm s e = some l) :
    l.head?.map ChunkReq.starttime = some s ∧
    List.Chain' (fun a b => dayNumber b.starttime = dayNumber a.endtime + 1) l ∧
    (∀ c ∈ l, dayNumber s ≤ dayNumber c.starttime ∧
      dayNumber c.starttime ≤ dayNumber c.endtime ∧
      dayNumber c.endtime ≤ dayNumber c.starttime + 31 ∧
      dayNumber c.endtime ≤ dayNumber e) ∧
    (∀ c : ChunkReq, l.getLast? = some c → dayNumber e ≤ dayNumber c.endtime + 1) ∧
    (∀ n : Nat, dayNumber s ≤ n → n < dayNumber e →
      ∃ c ∈ l, dayNumber c.starttime ≤ n ∧ n ≤ dayNumber c.endtime) := by
  unfold fetchRequests at hl
  rw [decide_eq_true hmd] at hl
  exact chunkLoop_spec e (lowerMag mr) (upperMag mr mm) he _ s l hs hle hl

/-- Claim C2 counterexample: for the range `[2024-01-01, 2024-03-03]`
(month difference 2, fractional span 2 months and 2 days) the orchestrator
issues the two requests `[2024-01-01, 2024-02-01]` and
`[2024-02-02, 2024-03-02]`: neither `ceil(spanMonths) = 3` requests, nor is
the range fully covered — the final day 2024-03-03 lies in no request. -/
theorem claim2_counterexample :
    fetchRequests none 2 ⟨2024, 0, 1⟩ ⟨2024, 2, 3⟩ =
      some [⟨⟨2024, 0, 1⟩, ⟨2024, 1, 1⟩, 0, 2⟩, ⟨⟨2024, 1, 2⟩, ⟨2024, 2, 2⟩, 0, 2⟩] ∧
    1 < monthDiff ⟨2024, 0, 1⟩ ⟨2024, 2, 3⟩ ∧
    dayNumber ⟨2024, 0, 1⟩ ≤ dayNumber ⟨2024, 2, 3⟩ ∧
    ¬ ∃ c ∈ [(⟨⟨2024, 0, 1⟩, ⟨2024, 1, 1⟩, 0, 2⟩ : ChunkReq),
             ⟨⟨2024, 1, 2⟩, ⟨2024, 2, 2⟩, 0, 2⟩],
        dayNumber c.starttime ≤ dayNumber ⟨2024, 2, 3⟩ ∧
        dayNumber ⟨2024, 2, 3⟩ ≤ dayNumber c.endtime := by
  decide

/-- Witness for C2 (amended) at the spec scenario `[2024-01-01, 2024-04-10]`:
four consecutive chunks, the first starting 2024-01-01, the last ending
2024-04-10. -/
theorem claim2_witness :
    ([(⟨⟨2024, 0, 1⟩, ⟨2024, 1, 1⟩, 0, 2⟩ : ChunkReq),
      ⟨⟨2024, 1, 2⟩, ⟨2024, 2, 2⟩, 0, 2⟩,
      ⟨⟨2024, 2, 3⟩, ⟨2024, 3, 3⟩, 0, 2⟩,
      ⟨⟨2024, 3, 4⟩, ⟨2024, 3, 10⟩, 0, 2⟩].head?.map ChunkReq.starttime
        = some ⟨2024, 0, 1⟩) ∧
    List.Chain' (fun a b => dayNumber b.starttime = dayNumber a.endtime + 1)
      [(⟨⟨2024, 0, 1⟩, ⟨2024, 1, 1⟩, 0, 2⟩ : ChunkReq),
       ⟨⟨2024, 1, 2⟩, ⟨2024, 2, 2⟩, 0, 2⟩,
       ⟨⟨2024, 2, 3⟩, ⟨2024, 3, 3⟩, 0, 2⟩,
       ⟨⟨2024, 3, 4⟩, ⟨2024, 3, 10⟩, 0, 2⟩] := by
  have h := claim2_chunk_structure none 2 ⟨2024, 0, 1⟩ ⟨2024, 3, 10⟩
    [⟨⟨2024, 0, 1⟩, ⟨2024, 1, 1⟩, 0, 2⟩,
     ⟨⟨2024, 1, 2⟩, ⟨2024, 2, 2⟩, 0, 2⟩,
     ⟨⟨2024, 2, 3⟩, ⟨2024, 3, 3⟩, 0, 2⟩,
     ⟨⟨2024, 3, 4⟩, ⟨2024, 3, 10⟩, 0, 2⟩]
    (by decide) (by decide) (by decide) (by decide) (by decide)
  exact ⟨h.1, h.2.1⟩

/-- Claim C10: for every valid date range with `start ≤ end` the chunked
do-while loop terminates (the loop recursion completes within the supplied
iteration bound); in single-chunk mode the body runs exactly once, producing
the single full-range request. -/
theorem claim10_loop_terminates (mr : Option (ℚ × ℚ)) (mm : ℚ) (s e : Date)
    (hs : s.Valid) (he : e.Valid) (hle : dayNumber s ≤ dayNumber e) :
    (∃ l, fetchRequests mr mm s e = some l) ∧
    (monthDiff s e ≤ 1 →
      fetchRequests mr mm s e = some [⟨s, e, lowerMag mr, upperMag mr mm⟩]) := by
  constructor
  · by_cases hmd : 1 < monthDiff s e
    · unfold fetchRequests
      rw [decide_eq_true hmd]
      rw [show (dayNumber e - dayNumber s) / 29 + 2
          = ((dayNumber e - dayNumber s) / 29 + 1) + 1 from by omega]
      apply chunkLoop_some e (lowerMag mr) (upperMag mr mm) he _ s hs
      have h1 := Nat.div_add_mod (dayNumber e - dayNumber s) 29
      have h2 : (dayNumber e - dayNumber s) % 29 < 29 := Nat.mod_lt _ (by norm_num)
      omega
    · push_neg at hmd
      exact ⟨_, fetchRequests_eq_single mr mm s e hmd⟩
  · intro hmd
    exact fetchRequests_eq_single mr mm s e hmd

/-- Witness for C10: the loop completes on `[2024-01-01, 2024-04-10]`. -/
theorem claim10_witness :
    (fetchRequests none 2 ⟨2024, 0, 1⟩ ⟨2024, 3, 10⟩).isSome = true := by
  obtain ⟨l, hl⟩ := (claim10_loop_terminates none 2 ⟨2024, 0, 1⟩ ⟨2024, 3, 10⟩
    (by decide) (by decide) (by decide)).1
  rw [hl]
  rfl

/-! ### Claim C7: all-or-nothing failure semantics -/

/-- Claim C7: if the chunk at position `|pre|` fails while all earlier chunks
succeed, the whole orchestration returns exactly that single error: the
accumulated partial results are discarded (the result carries no events), the
failing request is issued once and the remaining requests are never issued
(no retry), and the issued requests form a prefix of the planned sequence. -/
theorem claim7_abort_on_failure (remote : ChunkReq → Except String (List Event))
    (pre post : List ChunkReq) (r : ChunkReq) (msg : String)
    (hok : ∀ p ∈ pre, ∃ evs, remote p = .ok evs)
    (hfail : remote r = .error msg) :
    runChunksTrace remote (pre ++ r :: post) = (.error msg, pre ++ [r]) ∧
    (pre ++ [r]) <+: (pre ++ r :: post) := by
  refine ⟨?_, ⟨post, by simp⟩⟩
  induction pre with
  | nil =>
    simp only [List.nil_append]
    rw [runChunksTrace, hfail]
  | cons p ps ih =>
    obtain ⟨evs, hp⟩ := hok p (List.mem_cons_self p ps)
    have ih2 := ih (fun q hq => hok q (List.mem_cons_of_mem p hq))
    simp only [List.cons_append]
    rw [runChunksTrace, hp, ih2]

def reqA : ChunkReq := ⟨⟨2024, 0, 1⟩, ⟨2024, 1, 1⟩, 0, 10⟩
def reqB : ChunkReq := ⟨⟨2024, 1, 2⟩, ⟨2024, 2, 2⟩, 0, 10⟩
def reqC : ChunkReq := ⟨⟨2024, 2, 3⟩, ⟨2024, 3, 3⟩, 0, 10⟩

/-- A remote collaborator that succeeds on the first chunk and fails on any
other request. -/
def remoteW : ChunkReq → Except String (List Event) :=
  fun q => if q = reqA then .ok [ev1] else .error "Failed to fetch earthquake data"

/-- Witness for C7: with the second of three chunks failing, the run returns
the single error and issues only the first two requests. -/
theorem claim7_witness :
    runChunksTrace remoteW [reqA, reqB, reqC]
      = (.error "Failed to fetch earthquake data", [reqA, reqB]) := by
  have h := claim7_abort_on_failure remoteW [reqA] [reqC] reqB
    "Failed to fetch earthquake data"
    (fun p hp => ⟨[ev1], by
      have hp2 : p = reqA := List.mem_singleton.mp hp
      subst hp2
      unfold remoteW
      rw [if_pos rfl]⟩)
    (by unfold remoteW; rw [if_neg (by decide)])
  exact h.1

/-! ### Nearest-neighbour ranker lemmas and claim C6 -/

theorem distLE_true {a b : Event × ℝ} : distLE a b = true ↔ a.2 ≤ b.2 := by
  unfold distLE
  constructor
  · exact of_decide_eq_true
  · exact fun h => decide_eq_true h

theorem distLE_trans (a b c : Event × ℝ) (h1 : distLE a b = true)
    (h2 : distLE b c = true) : distLE a c = true := by
  rw [distLE_true] at h1 h2 ⊢
  exact le_trans h1 h2

theorem distLE_total (a b : Event × ℝ) : (distLE a b || distLE b a) = true := by
  rw [Bool.or_eq_true, distLE_true, distLE_true]
  exact le_total a.2 b.2

theorem pairwise_distLE_const (d : ℝ) (ps : List (Event × ℝ))
    (h : ∀ p ∈ ps, p.2 = d) :
    List.Pairwise (fun a b : Event × ℝ => distLE a b = true) ps := by
  induction ps with
  | nil => exact List.Pairwise.nil
  | cons p rest ih =>
    refine List.Pairwise.cons ?_ (ih fun q hq => h q (List.mem_cons_of_mem _ hq))
    intro q hq
    rw [distLE_true, h p (List.mem_cons_self _ _), h q (List.mem_cons_of_mem _ hq)]

/-- Claim C6, amended: the ranker output is the 10-element prefix of the
stably sorted distance pairs: it is sorted ascending by distance, has length
`min 10 (candidate count)`, ties keep their arrival order (any
arrival-ordered pair with equal distances stays in that order after the
sort), and a candidate at the reference's coordinates gets distance 0 (it is
not excluded by any self-filtering, though it can still fall outside the
10-element prefix — see `claim6_counterexample`). -/
theorem claim6_ranker (base : Event) (l : List Event) :
    rankRows base l = ((distPairs base l).mergeSort distLE).take 10 ∧
    List.Pairwise (fun a b : Event × ℝ => a.2 ≤ b.2) (rankRows base l) ∧
    (rankRows base l).length = min 10 l.length ∧
    (∀ a b : Event × ℝ, List.Sublist [a, b] (distPairs base l) → a.2 = b.2 →
      List.Sublist [a, b] ((distPairs base l).mergeSort distLE)) ∧
    (∀ e ∈ l, e.lat = base.lat → e.lon = base.lon →
      (e, (0 : ℝ)) ∈ distPairs base l) := by
  refine ⟨rfl, ?_, ?_, ?_, ?_⟩
  · have hs := List.sorted_mergeSort distLE_trans distLE_total (distPairs base l)
    have hs2 : List.Pairwise (fun a b : Event × ℝ => a.2 ≤ b.2)
        ((distPairs base l).mergeSort distLE) :=
      hs.imp (fun h => distLE_true.mp h)
    exact hs2.sublist (List.take_sublist _ _)
  · show (((distPairs base l).mergeSort distLE).take 10).length = _
    rw [List.length_take, List.length_mergeSort]
    unfold distPairs
    rw [List.length_map]
  · intro a b hab heq
    exact List.pair_sublist_mergeSort distLE_trans distLE_total
      (distLE_true.mpr (le_of_eq heq)) hab
  · intro e he hla hlo
    have hz : haversineKm (base.lat : ℝ) (base.lon : ℝ) (e.lat : ℝ) (e.lon : ℝ) = 0 := by
      rw [hla, hlo, haversineKm_self]
    unfold distPairs
    rw [List.mem_map]
    exact ⟨e, he, by rw [hz]⟩

def qev : Event := ⟨"q", some 1, 0, 0, 0, 0⟩
def ceBase : Event := ⟨"b", some 1, 0, 0, 0, 0⟩

/-- Eleven candidates at the reference's exact location, the reference
arriving last. -/
def ceList : List Event := List.replicate 10 qev ++ [ceBase]

/-- Claim C6 counterexample: the reference event is among the candidates (at
distance 0), yet it is NOT in the ranker output: ten equally-near candidates
precede it in arrival order, and the stable sort followed by the `slice(0,
10)` truncation drops it. -/
theorem claim6_counterexample :
    ceBase ∈ ceList ∧ ∀ p ∈ rankRows ceBase ceList, p.1 ≠ ceBase := by
  have hall : ∀ p ∈ distPairs ceBase ceList, p.2 = haversineKm 0 0 0 0 := by
    intro p hp
    unfold distPairs at hp
    rw [List.mem_map] at hp
    obtain ⟨e, he, rfl⟩ := hp
    have he2 : e = qev ∨ e = ceBase := by
      rw [ceList, List.mem_append] at he
      rcases he with he | he
      · exact Or.inl (List.eq_of_mem_replicate he)
      · exact Or.inr (List.mem_singleton.mp he)
    rcases he2 with rfl | rfl <;> norm_num [qev, ceBase]
  have hp := pairwise_distLE_const (haversineKm 0 0 0 0) (distPairs ceBase ceList) hall
  have hsorted := List.mergeSort_of_sorted hp
  constructor
  · decide
  · intro p hp2
    have hr : rankRows ceBase ceList = (distPairs ceBase ceList).take 10 := by
      show ((distPairs ceBase ceList).mergeSort distLE).take 10 = _
      rw [hsorted]
    rw [hr] at hp2
    unfold distPairs at hp2
    rw [← List.map_take, show ceList.take 10 = List.replicate 10 qev from rfl,
      List.mem_map] at hp2
    obtain ⟨e, he, rfl⟩ := hp2
    have he2 : e = qev := List.eq_of_mem_replicate he
    subst he2
    decide

/-- Witness for C6 (amended): two equally-near candidates stay in arrival
order in the sorted pairs, and the output length is `min 10 2`. -/
theorem claim6_witness :
    List.Sublist
      [(qev, haversineKm (ceBase.lat : ℝ) (ceBase.lon : ℝ) (qev.lat : ℝ) (qev.lon : ℝ)),
       (qev, haversineKm (ceBase.lat : ℝ) (ceBase.lon : ℝ) (qev.lat : ℝ) (qev.lon : ℝ))]
      ((distPairs ceBase [qev, qev]).mergeSort distLE) ∧
    (rankRows ceBase [qev, qev]).length = min 10 2 := by
  have h := claim6_ranker ceBase [qev, qev]
  exact ⟨h.2.2.2.1 _ _ (List.Sublist.refl _) rfl, h.2.2.1⟩

end EarthquakeViz
